import Mathlib

/-!
Verification of the record-cleaning script `clean_json.py`.

The script loads a JSON array of records from `amazon_results.json`,
partitions the records by presence of an `error` key, prints a report,
writes the valid subset to `amazon_results_cleaned.json`, and writes a
one-time backup of the full input to `amazon_results_new_backup.json`
when that file does not yet exist.

The embedding models JSON values, Python's `json` serialization with
`ensure_ascii=False, indent=4`, a JSON reader, the filesystem as a map
from path to optional file content, and the script's control flow.
JSON numbers are modelled as arbitrary-precision integers (the records
the script manipulates carry strings; floating-point literals are
outside the model).
-/

/-- A JSON value.  Python objects preserve insertion order, so an object
is an ordered association list. -/
inductive Json where
  | null : Json
  | bool : Bool → Json
  | num : Int → Json
  | str : String → Json
  | arr : List Json → Json
  | obj : List (String × Json) → Json
deriving Repr

/-- A record: one JSON object of the input array, as an ordered mapping
from string keys to JSON values (a Python `dict`). -/
abbrev Record := List (String × Json)

/-- Python `'error' in record`: key-membership in the dict. -/
def hasError (r : Record) : Bool := (r.map Prod.fst).contains "error"

/-- Python `record.get(k, default)`: the value of the first binding of
`k`, or `default` when the key is absent. -/
def pyGet (r : Record) (k : String) (default : Json) : Json :=
  match List.lookup k r with
  | some v => v
  | none => default

/-- One iteration of the partition loop of `clean_json.py`: append the
record to `error_records` when it has an `error` key, to
`valid_records` otherwise. -/
def partitionStep (acc : List Record × List Record) (r : Record) :
    List Record × List Record :=
  if hasError r then (acc.1, acc.2 ++ [r]) else (acc.1 ++ [r], acc.2)

/-- The partition loop of `clean_json.py`: fold `partitionStep` over the
dataset starting from two empty lists; yields
`(valid_records, error_records)`. -/
def partitionRecords (ds : List Record) : List Record × List Record :=
  ds.foldl partitionStep ([], [])

theorem partitionRecords_go (ds : List Record) (v e : List Record) :
    ds.foldl partitionStep (v, e) =
      (v ++ ds.filter (fun r => !hasError r), e ++ ds.filter (fun r => hasError r)) := by
  induction ds generalizing v e with
  | nil => simp
  | cons a as ih =>
    by_cases h : hasError a
    · simp [List.foldl_cons, partitionStep, h, ih, List.filter_cons]
    · simp [List.foldl_cons, partitionStep, h, ih, List.filter_cons]

theorem partitionRecords_eq (ds : List Record) :
    partitionRecords ds =
      (ds.filter (fun r => !hasError r), ds.filter (fun r => hasError r)) := by
  simpa using partitionRecords_go ds [] []

theorem hasError_iff_mem_keys (r : Record) :
    hasError r = true ↔ "error" ∈ r.map Prod.fst := by
  simp [hasError]

theorem lookup_isSome_of_mem_keys (k : String) (r : Record)
    (h : k ∈ r.map Prod.fst) : (List.lookup k r).isSome := by
  induction r with
  | nil => simp at h
  | cons p ps ih =>
    simp only [List.map_cons, List.mem_cons] at h
    by_cases hk : k = p.1
    · simp [List.lookup, hk]
    · have hb : (k == p.1) = false := by simp [beq_eq_false_iff_ne, hk]
      have hstep : List.lookup k (p :: ps) = List.lookup k ps := by
        simp [List.lookup, hb]
      rcases h with h | h
      · exact absurd h hk
      · rw [hstep]; exact ih h

/-! ## Serialization: Python `json.dump(..., ensure_ascii=False, indent=4)` -/

/-- The character for one hexadecimal digit (lower case, as CPython's
`\uXXXX` escapes use). -/
def hexDigitCh (n : Nat) : Char :=
  if n < 10 then Char.ofNat (48 + n) else Char.ofNat (87 + n)

/-- Four hexadecimal digits of `n % 0x10000`, most significant first. -/
def hex4 (n : Nat) : List Char :=
  [hexDigitCh (n / 4096 % 16), hexDigitCh (n / 256 % 16),
   hexDigitCh (n / 16 % 16), hexDigitCh (n % 16)]

/-- CPython `py_encode_basestring` (the `ensure_ascii=False` string
escaper): escapes `"` and `\` and the C0 control characters, leaving
every other character - in particular all non-ASCII - literal. -/
def escChar (c : Char) : List Char :=
  if c = '"' then ['\\', '"']
  else if c = '\\' then ['\\', '\\']
  else if c = '\n' then ['\\', 'n']
  else if c = '\r' then ['\\', 'r']
  else if c = '\t' then ['\\', 't']
  else if c.toNat = 8 then ['\\', 'b']
  else if c.toNat = 12 then ['\\', 'f']
  else if c.toNat < 32 then '\\' :: 'u' :: hex4 c.toNat
  else [c]

/-- A JSON string literal: quote, escaped characters, quote. -/
def encStr (s : String) : List Char :=
  '"' :: (s.data.map escChar).flatten ++ ['"']

/-- The decimal digit character of `n % 10`. -/
def digitCh (n : Nat) : Char := Char.ofNat (48 + n % 10)

/-- The decimal digits of a positive number, least significant first. -/
def natRevDigits : Nat → List Char
  | 0 => []
  | n + 1 => digitCh ((n + 1) % 10) :: natRevDigits ((n + 1) / 10)
decreasing_by exact Nat.div_lt_self (Nat.succ_pos n) (by norm_num)

/-- Decimal representation of a natural number. -/
def natChars (n : Nat) : List Char :=
  if n = 0 then ['0'] else (natRevDigits n).reverse

/-- Decimal representation of an integer, as Python `repr(int)` prints
it inside `json.dump`. -/
def intChars : Int → List Char
  | .ofNat n => natChars n
  | .negSucc n => '-' :: natChars (n + 1)

/-- The indentation prefix at nesting depth `d` for `indent=4`. -/
def indentChars (d : Nat) : List Char := List.replicate (4 * d) ' '

mutual

/-- Serialize a JSON value at nesting depth `d`, exactly as
`json.dump(x, f, ensure_ascii=False, indent=4)` lays it out. -/
def dumpsVal (d : Nat) : Json → List Char
  | .null => 'n' :: ['u', 'l', 'l']
  | .bool true => 't' :: ['r', 'u', 'e']
  | .bool false => 'f' :: ['a', 'l', 's', 'e']
  | .num i => intChars i
  | .str s => encStr s
  | .arr [] => ['[', ']']
  | .arr (x :: xs) =>
      '[' :: '\n' :: dumpsElems (d + 1) x xs ++ '\n' :: indentChars d ++ [']']
  | .obj [] => ['\x7b', '\x7d']
  | .obj (m :: ms) =>
      '\x7b' :: '\n' :: dumpsMems (d + 1) m ms ++ '\n' :: indentChars d ++ ['\x7d']
termination_by j => sizeOf j

/-- Serialize the items of a non-empty array, one per line at depth `d`,
separated by `,\n`. -/
def dumpsElems (d : Nat) (x : Json) : List Json → List Char
  | [] => indentChars d ++ dumpsVal d x
  | y :: ys => indentChars d ++ dumpsVal d x ++ ',' :: '\n' :: dumpsElems d y ys
termination_by l => sizeOf x + sizeOf l

/-- Serialize the members of a non-empty object, one `"key": value` per
line at depth `d`, separated by `,\n`. -/
def dumpsMems (d : Nat) (m : String × Json) : List (String × Json) → List Char
  | [] => indentChars d ++ encStr m.1 ++ ':' :: ' ' :: dumpsVal d m.2
  | y :: ys =>
      indentChars d ++ encStr m.1 ++ ':' :: ' ' :: dumpsVal d m.2 ++
        ',' :: '\n' :: dumpsMems d y ys
termination_by l => sizeOf m + sizeOf l
decreasing_by
  all_goals obtain ⟨a, b⟩ := m
  all_goals simp
  all_goals omega

end

/-- The full serialized text of a JSON value. -/
def dumps (j : Json) : String := ⟨dumpsVal 0 j⟩

/-! ## Parsing: model of Python `json.load` (restricted to integer
numerals; floating-point literals are outside the model) -/

/-- JSON whitespace. -/
def isWs (c : Char) : Bool := c = ' ' || c = '\n' || c = '\r' || c = '\t'

/-- Drop leading JSON whitespace. -/
def skipWs (cs : List Char) : List Char := cs.dropWhile isWs

/-- The value of a hexadecimal digit character. -/
def hexVal? (c : Char) : Option Nat :=
  if 48 ≤ c.toNat ∧ c.toNat ≤ 57 then some (c.toNat - 48)
  else if 97 ≤ c.toNat ∧ c.toNat ≤ 102 then some (c.toNat - 87)
  else if 65 ≤ c.toNat ∧ c.toNat ≤ 70 then some (c.toNat - 55)
  else none

/-- Decode a single-character string escape (everything but `\uXXXX`). -/
def unescCh (e : Char) : Option Char :=
  if e = '"' then some '"'
  else if e = '\\' then some '\\'
  else if e = '/' then some '/'
  else if e = 'b' then some (Char.ofNat 8)
  else if e = 'f' then some (Char.ofNat 12)
  else if e = 'n' then some '\n'
  else if e = 'r' then some '\r'
  else if e = 't' then some '\t'
  else none

/-- Read the body of a JSON string literal after the opening quote, up
to and including the closing quote; yields the decoded characters and
the remaining input. -/
def parseStrBody : List Char → Option (List Char × List Char)
  | [] => none
  | c :: rest =>
    if c = '"' then some ([], rest)
    else if c = '\\' then
      match rest with
      | [] => none
      | e :: rest2 =>
        if e = 'u' then
          match rest2 with
          | a :: b :: c2 :: d :: rest3 =>
            match hexVal? a, hexVal? b, hexVal? c2, hexVal? d with
            | some x, some y, some z, some w =>
              (parseStrBody rest3).map
                (fun p => (Char.ofNat (((x * 16 + y) * 16 + z) * 16 + w) :: p.1, p.2))
            | _, _, _, _ => none
          | _ => none
        else
          match unescCh e with
          | some u => (parseStrBody rest2).map (fun p => (u :: p.1, p.2))
          | none => none
    else (parseStrBody rest).map (fun p => (c :: p.1, p.2))

/-- The numeric value of a decimal digit character. -/
def digVal (c : Char) : Nat := c.toNat - 48

/-- Read a non-empty run of decimal digits and its value. -/
def parseNat (cs : List Char) : Option (Nat × List Char) :=
  match cs.takeWhile Char.isDigit with
  | [] => none
  | _ :: _ =>
    some ((cs.takeWhile Char.isDigit).foldl (fun a c => a * 10 + digVal c) 0,
      cs.dropWhile Char.isDigit)

mutual

/-- Read one JSON value (after optional leading whitespace); `fuel`
bounds the nesting depth explored. -/
def parseValue : Nat → List Char → Option (Json × List Char)
  | 0, _ => none
  | fuel + 1, cs =>
    match skipWs cs with
    | [] => none
    | c :: rest =>
      if c = 'n' then
        match rest with
        | 'u' :: 'l' :: 'l' :: r => some (.null, r)
        | _ => none
      else if c = 't' then
        match rest with
        | 'r' :: 'u' :: 'e' :: r => some (.bool true, r)
        | _ => none
      else if c = 'f' then
        match rest with
        | 'a' :: 'l' :: 's' :: 'e' :: r => some (.bool false, r)
        | _ => none
      else if c = '"' then
        (parseStrBody rest).map (fun p => (.str ⟨p.1⟩, p.2))
      else if c = '[' then
        match skipWs rest with
        | ']' :: r => some (.arr [], r)
        | _ => (parseElems fuel rest).map (fun p => (.arr p.1, p.2))
      else if c = '\x7b' then
        match skipWs rest with
        | '\x7d' :: r => some (.obj [], r)
        | _ => (parseMems fuel rest).map (fun p => (.obj p.1, p.2))
      else if c = '-' then
        (parseNat rest).map (fun p => (.num (-(p.1 : Int)), p.2))
      else if c.isDigit then
        (parseNat (c :: rest)).map (fun p => (.num (p.1 : Int), p.2))
      else none

/-- Read the comma-separated items of a non-empty array, up to and
including the closing bracket. -/
def parseElems : Nat → List Char → Option (List Json × List Char)
  | 0, _ => none
  | fuel + 1, cs =>
    match parseValue fuel cs with
    | none => none
    | some (v, rest) =>
      match skipWs rest with
      | ',' :: r => (parseElems fuel r).map (fun p => (v :: p.1, p.2))
      | ']' :: r => some ([v], r)
      | _ => none

/-- Read the comma-separated members of a non-empty object, up to and
including the closing brace. -/
def parseMems : Nat → List Char → Option (List (String × Json) × List Char)
  | 0, _ => none
  | fuel + 1, cs =>
    match skipWs cs with
    | '"' :: rest =>
      match parseStrBody rest with
      | none => none
      | some (k, rest2) =>
        match skipWs rest2 with
        | ':' :: rest3 =>
          match parseValue fuel rest3 with
          | none => none
          | some (v, rest4) =>
            match skipWs rest4 with
            | ',' :: r => (parseMems fuel r).map (fun p => ((⟨k⟩, v) :: p.1, p.2))
            | '\x7d' :: r => some ([(⟨k⟩, v)], r)
            | _ => none
        | _ => none
    | _ => none

end

/-- Parse a complete JSON document: one value followed by nothing but
whitespace, as `json.load` requires. -/
def parseJson (s : String) : Option Json :=
  match parseValue (s.data.length + 1) s.data with
  | some (j, rest) => if (skipWs rest).isEmpty then some j else none
  | none => none

/-! ## Report: model of the statistics / error-listing prints -/

/-- Two hexadecimal digits of `n % 0x100`. -/
def hex2 (n : Nat) : List Char := [hexDigitCh (n / 16 % 16), hexDigitCh (n % 16)]

/-- Python `repr`-style escaping of one character inside a string
literal quoted by `q` (C0 control characters beyond the named escapes
are rendered `\xHH`; escaping of non-printable characters above U+007F
is not modelled - no theorem below exercises it). -/
def pyReprEsc (q : Char) (c : Char) : List Char :=
  if c = '\\' then ['\\', '\\']
  else if c = q then ['\\', q]
  else if c = '\n' then ['\\', 'n']
  else if c = '\r' then ['\\', 'r']
  else if c = '\t' then ['\\', 't']
  else if c.toNat < 32 then '\\' :: 'x' :: hex2 c.toNat
  else [c]

/-- Python `repr` of a string: single-quoted, unless the string contains
a single quote and no double quote. -/
def pyStrRepr (s : String) : String :=
  let q : Char := if s.contains '\'' ∧ ¬s.contains '"' then '"' else '\''
  ⟨q :: (s.data.map (pyReprEsc q)).flatten ++ [q]⟩

mutual

/-- Python `repr` of a JSON-representable value. -/
def pyRepr : Json → String
  | .null => "None"
  | .bool true => "True"
  | .bool false => "False"
  | .num i => ⟨intChars i⟩
  | .str s => pyStrRepr s
  | .arr [] => "[]"
  | .arr (x :: xs) => "[" ++ pyReprElems x xs ++ "]"
  | .obj [] => "\x7b\x7d"
  | .obj (m :: ms) => "\x7b" ++ pyReprMems m ms ++ "\x7d"
termination_by j => sizeOf j

/-- `repr` of the items of a non-empty list, `", "`-separated. -/
def pyReprElems (x : Json) : List Json → String
  | [] => pyRepr x
  | y :: ys => pyRepr x ++ ", " ++ pyReprElems y ys
termination_by l => sizeOf x + sizeOf l

/-- `repr` of the entries of a non-empty dict, `", "`-separated. -/
def pyReprMems (m : String × Json) : List (String × Json) → String
  | [] => pyStrRepr m.1 ++ ": " ++ pyRepr m.2
  | y :: ys => pyStrRepr m.1 ++ ": " ++ pyRepr m.2 ++ ", " ++ pyReprMems y ys
termination_by l => sizeOf m + sizeOf l
decreasing_by
  all_goals obtain ⟨a, b⟩ := m
  all_goals simp
  all_goals omega

end

/-- Python `str()` as an f-string renders a value: strings are shown
bare, everything else through `repr`. -/
def pyStr : Json → String
  | .str s => s
  | j => pyRepr j

/-- Python `x[:80]`: defined for values supporting slicing (strings and
lists); `none` models the `TypeError` raised otherwise. -/
def pySlice80 : Json → Option Json
  | .str s => some (.str ⟨s.data.take 80⟩)
  | .arr l => some (.arr (l.take 80))
  | _ => none

/-- The literal prefix of an error-detail line in `clean_json.py`
(the source file carries the mojibake bytes `U+00E2 U+20AC U+00A2` where
a bullet was intended). -/
def errBullet : String := "   â€¢ "

/-- One error-detail line:
`print(f"   ... {asin}: {error[:80]}...")` with
`asin = record.get('asin', 'Unknown')` and
`error = record.get('error', 'Unknown error')`; `none` models the
`TypeError` from slicing an unsliceable `error` value. -/
def describeError (r : Record) : Option String :=
  let asin := pyGet r "asin" (.str "Unknown")
  let error := pyGet r "error" (.str "Unknown error")
  (pySlice80 error).map (fun sl => errBullet ++ pyStr asin ++ ": " ++ pyStr sl ++ "...")

/-- Run an option-valued function over a list, propagating the first
failure (the shape of the `for record in error_records` print loop). -/
def mapOpt {a b : Type} (f : a → Option b) : List a → Option (List b)
  | [] => some []
  | x :: xs =>
    match f x with
    | none => none
    | some y =>
      match mapOpt f xs with
      | none => none
      | some ys => some (y :: ys)

/-- The error-listing section of the report: printed only when
`error_records` is non-empty, one line per errored record in order,
after the `"\nASINs with errors:"` header; `none` models a crash. -/
def reportErrorSection (errored : List Record) : Option (List String) :=
  if errored.isEmpty then some []
  else (mapOpt describeError errored).map (fun ls => "\nASINs with errors:" :: ls)

/-! ## Filesystem and the script's file operations -/

/-- The fixed input path of `clean_json.py`. -/
def inputFile : String := "amazon_results.json"

/-- The fixed cleaned-output path. -/
def outputFile : String := "amazon_results_cleaned.json"

/-- The fixed backup path. -/
def backupFile : String := "amazon_results_new_backup.json"

/-- The filesystem: a map from path to optional file content. -/
abbrev FS := String → Option String

/-- Writing a file: truncating create, replacing any previous content. -/
def fsWrite (fs : FS) (p : String) (content : String) : FS :=
  fun q => if q = p then some content else fs q

/-- How `load` fails: `open` raises on a missing path, `json.load`
raises on undecodable content. -/
inductive LoadError where
  | fileNotFound : LoadError
  | malformedInput : LoadError
deriving DecidableEq

/-- `open(path, encoding='utf-8')` followed by `json.load(f)`: the
parsed value of the file at `path`, whatever JSON value it is. -/
def load (fs : FS) (p : String) : Except LoadError Json :=
  match fs p with
  | none => .error .fileNotFound
  | some content =>
    match parseJson content with
    | none => .error .malformedInput
    | some j => .ok j

/-- `json.dump(valid_records, f, ensure_ascii=False, indent=4)` into
`output_file`, opened with mode `'w'`. -/
def writeCleaned (fs : FS) (valid : List Record) : FS :=
  fsWrite fs outputFile (dumps (.arr (valid.map .obj)))

/-- The backup step: only when no file exists at `backup_file`,
`json.dump(records, f, ensure_ascii=False, indent=4)` into it. -/
def maybeBackup (fs : FS) (records : List Record) : FS :=
  match fs backupFile with
  | some _ => fs
  | none => fsWrite fs backupFile (dumps (.arr (records.map .obj)))

/-- View a parsed JSON value as the dataset the script iterates: a
top-level array whose elements are objects.  The script's dynamic
behavior on other shapes (iterating a dict's keys, slicing strings,
`TypeError` on `len`) is outside the modelled scope. -/
def toRecords : Json → Option (List Record)
  | .arr l => mapOpt (fun j => match j with | .obj r => some r | _ => none) l
  | _ => none

/-- How a run of the script can fail. -/
inductive RunError where
  | fileNotFound : RunError
  | malformedInput : RunError
  | notRecordArray : RunError
  | typeError : RunError
deriving DecidableEq

/-- One run of `clean_json.py`: load, partition, report, write the
cleaned file, conditionally write the backup.  Yields the final
filesystem and the error-listing lines. -/
def runScript (fs : FS) : Except RunError (FS × List String) :=
  match load fs inputFile with
  | .error .fileNotFound => .error .fileNotFound
  | .error .malformedInput => .error .malformedInput
  | .ok j =>
    match toRecords j with
    | none => .error .notRecordArray
    | some records =>
      let p := partitionRecords records
      match reportErrorSection p.2 with
      | none => .error .typeError
      | some lines =>
        .ok (maybeBackup (writeCleaned fs p.1) records, lines)

/-! ## Claims about the partition -/

/-- C1: for every dataset, the partition's `valid` and `errored` are
disjoint stable sub-sequences preserving relative order, their lengths
sum to the dataset's length, their concatenation is a permutation of
the dataset, and every record of the dataset appears in exactly one of
the two sequences. -/
theorem partition_is_stable_disjoint_cover (ds : List Record) :
    (partitionRecords ds).1.length + (partitionRecords ds).2.length = ds.length ∧
    (partitionRecords ds).1.Sublist ds ∧
    (partitionRecords ds).2.Sublist ds ∧
    ((partitionRecords ds).1 ++ (partitionRecords ds).2).Perm ds ∧
    ∀ r ∈ ds, (r ∈ (partitionRecords ds).1 ∨ r ∈ (partitionRecords ds).2) ∧
      ¬(r ∈ (partitionRecords ds).1 ∧ r ∈ (partitionRecords ds).2) := by
  rw [partitionRecords_eq]
  have hfc : ds.filter (fun a => !!hasError a) = ds.filter (fun a => hasError a) :=
    List.filter_congr (fun a _ => by simp)
  have hperm : ((ds.filter fun r => !hasError r) ++ ds.filter fun r => hasError r).Perm ds := by
    have h := List.filter_append_perm (fun r => !hasError r) ds
    rwa [hfc] at h
  refine ⟨?_, List.filter_sublist _, List.filter_sublist _, hperm, ?_⟩
  · simpa [List.length_append] using hperm.length_eq
  · intro r hr
    constructor
    · by_cases h : hasError r
      · exact Or.inr (List.mem_filter.mpr ⟨hr, h⟩)
      · exact Or.inl (List.mem_filter.mpr ⟨hr, by simp [h]⟩)
    · rintro ⟨h1, h2⟩
      have e1 := (List.mem_filter.mp h1).2
      have e2 := (List.mem_filter.mp h2).2
      simp [e2] at e1

theorem partition_is_stable_disjoint_cover_witness :
    ([("error", Json.str "boom")] ∈
        (partitionRecords [[("asin", Json.str "A1")], [("error", Json.str "boom")]]).1 ∨
      [("error", Json.str "boom")] ∈
        (partitionRecords [[("asin", Json.str "A1")], [("error", Json.str "boom")]]).2) ∧
    ¬([("error", Json.str "boom")] ∈
        (partitionRecords [[("asin", Json.str "A1")], [("error", Json.str "boom")]]).1 ∧
      [("error", Json.str "boom")] ∈
        (partitionRecords [[("asin", Json.str "A1")], [("error", Json.str "boom")]]).2) :=
  (partition_is_stable_disjoint_cover
      [[("asin", Json.str "A1")], [("error", Json.str "boom")]]).2.2.2.2
    [("error", Json.str "boom")] (by simp)

/-- C2: a record lands in `errored` exactly when it has a key literally
named `error` (any value), in `valid` otherwise; the classification
reads only the key set of the record, never the value under `error`. -/
theorem errored_iff_error_key (ds : List Record) (r : Record) :
    (r ∈ (partitionRecords ds).2 → hasError r = true) ∧
    (r ∈ (partitionRecords ds).1 → hasError r = false) ∧
    (r ∈ ds → hasError r = true → r ∈ (partitionRecords ds).2) ∧
    (r ∈ ds → hasError r = false → r ∈ (partitionRecords ds).1) ∧
    (hasError r = true ↔ "error" ∈ r.map Prod.fst) ∧
    (∀ r', r.map Prod.fst = r'.map Prod.fst → hasError r = hasError r') := by
  rw [partitionRecords_eq]
  refine ⟨?_, ?_, ?_, ?_, hasError_iff_mem_keys r, ?_⟩
  · intro h; exact (List.mem_filter.mp h).2
  · intro h; simpa using (List.mem_filter.mp h).2
  · intro h hh; exact List.mem_filter.mpr ⟨h, hh⟩
  · intro h hh; exact List.mem_filter.mpr ⟨h, by simp [hh]⟩
  · intro r' hk; simp [hasError, hk]

theorem errored_iff_error_key_witness :
    [("error", Json.null)] ∈ (partitionRecords [[("error", Json.null)]]).2 :=
  (errored_iff_error_key [[("error", Json.null)]] [("error", Json.null)]).2.2.1
    (by simp) rfl

/-- C10: every record that the partition puts into `errored` carries an
`error` key, so `record.get('error', 'Unknown error')` returns the
stored value and never the `"Unknown error"` default. -/
theorem errored_get_error_never_default (ds : List Record) (r : Record)
    (h : r ∈ (partitionRecords ds).2) :
    ∃ v, List.lookup "error" r = some v ∧ ∀ d, pyGet r "error" d = v := by
  rw [partitionRecords_eq] at h
  have he : hasError r = true := (List.mem_filter.mp h).2
  have hmem := (hasError_iff_mem_keys r).mp he
  have hs := lookup_isSome_of_mem_keys "error" r hmem
  obtain ⟨v, hv⟩ := Option.isSome_iff_exists.mp hs
  exact ⟨v, hv, fun d => by simp [pyGet, hv]⟩

theorem errored_get_error_never_default_witness :
    ∃ v, List.lookup "error" [("error", Json.str "boom")] = some v ∧
      ∀ d, pyGet [("error", Json.str "boom")] "error" d = v :=
  errored_get_error_never_default [[("error", Json.str "boom")]]
    [("error", Json.str "boom")] (by rw [partitionRecords_eq]; simp [hasError])

/-! ## Helper lemmas about `Option`-valued `mapM` -/

theorem mapOpt_isSome {α β : Type} (f : α → Option β) (l : List α) :
    (mapOpt f l).isSome ↔ ∀ a ∈ l, (f a).isSome := by
  induction l with
  | nil => simp [mapOpt]
  | cons a as ih =>
    cases hf : f a with
    | none => simp [mapOpt, hf]
    | some b =>
      cases hm : mapOpt f as with
      | none => simp [mapOpt, hf, hm] at ih ⊢; exact ih
      | some bs => simp [mapOpt, hf, hm] at ih ⊢; exact ih

theorem mapOpt_forall2 {α β : Type} (f : α → Option β) (l : List α)
    (h : ∀ a ∈ l, (f a).isSome) :
    ∃ bs, mapOpt f l = some bs ∧ List.Forall₂ (fun a b => f a = some b) l bs := by
  induction l with
  | nil => exact ⟨[], rfl, List.Forall₂.nil⟩
  | cons a as ih =>
    obtain ⟨b, hb⟩ := Option.isSome_iff_exists.mp (h a (by simp))
    obtain ⟨bs, hbs, hf2⟩ := ih (fun x hx => h x (by simp [hx]))
    exact ⟨b :: bs, by simp [mapOpt, hb, hbs], List.Forall₂.cons hb hf2⟩

/-! ## Claims about `load` -/

/-- C3 (amended): `load` fails with `FileNotFound` when no file exists
at the path, fails with `MalformedInput` when the content is not
decodable JSON, and otherwise returns the parsed top-level value as is -
no check that it is an array is performed. -/
theorem load_spec (fs : FS) (p : String) :
    (fs p = none → load fs p = .error .fileNotFound) ∧
    (∀ c, fs p = some c → parseJson c = none → load fs p = .error .malformedInput) ∧
    (∀ c j, fs p = some c → parseJson c = some j → load fs p = .ok j) := by
  refine ⟨fun h => ?_, fun c h hp => ?_, fun c j h hp => ?_⟩
  · simp [load, h]
  · simp [load, h, hp]
  · simp [load, h, hp]

theorem load_spec_witness :
    load (fun q => if q = "present" then some "[" else none) "missing"
        = .error .fileNotFound ∧
    load (fun q => if q = "present" then some "[" else none) "present"
        = .error .malformedInput :=
  ⟨(load_spec (fun q => if q = "present" then some "[" else none) "missing").1 rfl,
   (load_spec (fun q => if q = "present" then some "[" else none) "present").2.1 "[" rfl rfl⟩

/-- C3 counterexample: a file whose content `{}` is valid JSON with a
non-array top level is loaded successfully - `load` returns the parsed
object instead of failing with `MalformedInput`. -/
theorem load_accepts_nonarray_counterexample :
    load (fun q => if q = inputFile then some "\x7b\x7d" else none) inputFile
        = .ok (.obj []) ∧
    (∀ l, Json.obj [] ≠ Json.arr l) ∧
    load (fun q => if q = inputFile then some "\x7b\x7d" else none) inputFile
        ≠ .error .malformedInput := by
  refine ⟨rfl, fun l => by simp, ?_⟩
  simp [show load (fun q => if q = inputFile then some "\x7b\x7d" else none) inputFile
      = .ok (.obj []) from rfl]

/-! ## Claims about `writeCleaned` and the backup -/

theorem output_ne_backup : outputFile ≠ backupFile := by decide

theorem writeCleaned_preserves_backup (fs : FS) (valid : List Record) :
    (writeCleaned fs valid) backupFile = fs backupFile := by
  simp [writeCleaned, fsWrite, output_ne_backup.symm]

/-- C4: `writeCleaned` stores at the output path exactly the
`indent=4`, `ensure_ascii=False` serialization of `valid` as a JSON
array, whatever was there before (unconditional overwrite); the stored
text does not depend on the prior filesystem, so re-running writes the
identical text; every non-ASCII character of a string is emitted
literally, unescaped; the indent unit is four spaces. -/
theorem writeCleaned_overwrites_with_serialized (fs fs' : FS) (valid : List Record) :
    (writeCleaned fs valid) outputFile = some (dumps (.arr (valid.map .obj))) ∧
    (writeCleaned fs valid) outputFile = (writeCleaned fs' valid) outputFile ∧
    (∀ c : Char, 128 ≤ c.toNat → escChar c = [c]) ∧
    dumps (.arr [.null]) = "[\n    null\n]" := by
  refine ⟨by simp [writeCleaned, fsWrite], by simp [writeCleaned, fsWrite], ?_, ?_⟩
  swap
  · show dumps (.arr [.null]) = "[\n    null\n]"
    have h : dumpsVal 0 (.arr [.null]) = "[\n    null\n]".data := by
      simp [dumpsVal, dumpsElems, indentChars]
    simp [dumps, h]
  intro c hc
  have h1 : ¬c = '"' := by rintro rfl; exact absurd hc (by decide)
  have h2 : ¬c = '\\' := by rintro rfl; exact absurd hc (by decide)
  have h3 : ¬c = '\n' := by rintro rfl; exact absurd hc (by decide)
  have h4 : ¬c = '\r' := by rintro rfl; exact absurd hc (by decide)
  have h5 : ¬c = '\t' := by rintro rfl; exact absurd hc (by decide)
  simp only [escChar, if_neg h1, if_neg h2, if_neg h3, if_neg h4, if_neg h5]
  rw [if_neg (by omega), if_neg (by omega), if_neg (by omega)]

theorem writeCleaned_overwrites_with_serialized_witness :
    escChar 'é' = ['é'] :=
  (writeCleaned_overwrites_with_serialized (fun _ => none) (fun _ => none) []).2.2.1
    'é' (by decide)

/-- C6: when a file already exists at the backup path, the backup step
is a no-op: the filesystem is unchanged, the pre-existing backup
content survives a full write pass, the cleaned output is still
rewritten, and a second write pass leaves the backup file exactly as
after the first. -/
theorem backup_is_one_time (fs : FS) (c : String)
    (records valid valid2 records2 : List Record)
    (h : fs backupFile = some c) :
    maybeBackup fs records = fs ∧
    (maybeBackup (writeCleaned fs valid) records) backupFile = some c ∧
    (maybeBackup (writeCleaned fs valid) records) outputFile
        = some (dumps (.arr (valid.map .obj))) ∧
    (maybeBackup (writeCleaned (maybeBackup (writeCleaned fs valid) records) valid2)
          records2) backupFile
        = (maybeBackup (writeCleaned fs valid) records) backupFile := by
  have hb1 : (writeCleaned fs valid) backupFile = some c := by
    rw [writeCleaned_preserves_backup, h]
  have hnoop1 : maybeBackup (writeCleaned fs valid) records = writeCleaned fs valid := by
    simp [maybeBackup, hb1]
  refine ⟨by simp [maybeBackup, h], by rw [hnoop1, hb1], ?_, ?_⟩
  · rw [hnoop1]; simp [writeCleaned, fsWrite]
  · rw [hnoop1, hb1]
    have hb2 : (writeCleaned (writeCleaned fs valid) valid2) backupFile = some c := by
      rw [writeCleaned_preserves_backup, hb1]
    simp [maybeBackup, hb2, hb1]

theorem backup_is_one_time_witness :
    maybeBackup (fun q => if q = backupFile then some "old" else none) [] =
      (fun q => if q = backupFile then some "old" else none) ∧
    (maybeBackup
        (writeCleaned (fun q => if q = backupFile then some "old" else none) [])
        []) backupFile = some "old" :=
  ⟨(backup_is_one_time (fun q => if q = backupFile then some "old" else none)
      "old" [] [] [] [] rfl).1,
   (backup_is_one_time (fun q => if q = backupFile then some "old" else none)
      "old" [] [] [] [] rfl).2.1⟩

/-- C7: when no file exists at the backup path, the backup step writes
the serialization of the full, unfiltered dataset there - the same text
`writeCleaned` would produce for that dataset (identical formatting
rules) - and a full script run with the backup absent stores at the
backup path exactly the dataset it loaded, untouched by the partition
step. -/
theorem backup_writes_full_original (fs fs' : FS) (records valid : List Record)
    (h : fs backupFile = none) :
    (maybeBackup fs records) backupFile = some (dumps (.arr (records.map .obj))) ∧
    (maybeBackup (writeCleaned fs valid) records) backupFile
        = some (dumps (.arr (records.map .obj))) ∧
    (maybeBackup fs records) backupFile = (writeCleaned fs' records) outputFile ∧
    (∀ fs2 lines, runScript fs = .ok (fs2, lines) →
      ∃ records', (∃ j, load fs inputFile = .ok j ∧ toRecords j = some records') ∧
        fs2 backupFile = some (dumps (.arr (records'.map .obj)))) := by
  have hw : ∀ g : FS, g backupFile = none →
      (maybeBackup g records) backupFile = some (dumps (.arr (records.map .obj))) := by
    intro g hg
    simp [maybeBackup, hg, fsWrite]
  refine ⟨hw fs h, hw _ (by rw [writeCleaned_preserves_backup, h]), ?_, ?_⟩
  · rw [hw fs h]; simp [writeCleaned, fsWrite]
  · intro fs2 lines hrun
    unfold runScript at hrun
    cases hload : load fs inputFile with
    | error e =>
      rw [hload] at hrun
      cases e <;> simp at hrun
    | ok j =>
      rw [hload] at hrun
      dsimp only at hrun
      cases htr : toRecords j with
      | none => rw [htr] at hrun; exact absurd hrun (by simp)
      | some records' =>
        simp only [htr] at hrun
        cases hrep : reportErrorSection (partitionRecords records').2 with
        | none => rw [hrep] at hrun; exact absurd hrun (by simp)
        | some lines' =>
          simp only [hrep, Except.ok.injEq, Prod.mk.injEq] at hrun
          obtain ⟨hfs2, -⟩ := hrun
          refine ⟨records', ⟨j, rfl, htr⟩, ?_⟩
          rw [← hfs2]
          have hb : (writeCleaned fs (partitionRecords records').1) backupFile = none := by
            rw [writeCleaned_preserves_backup, h]
          simp [maybeBackup, hb, fsWrite]

theorem backup_writes_full_original_witness :
    ∃ records', (∃ j, load (fun q => if q = inputFile then some "[]" else none)
          inputFile = .ok j ∧ toRecords j = some records') ∧
      (maybeBackup
          (writeCleaned (fun q => if q = inputFile then some "[]" else none) []) [])
        backupFile = some (dumps (.arr (records'.map .obj))) :=
  (backup_writes_full_original (fun q => if q = inputFile then some "[]" else none)
      (fun _ => none) [] [] rfl).2.2.2
    (maybeBackup
      (writeCleaned (fun q => if q = inputFile then some "[]" else none) []) [])
    [] rfl

/-! ## Claims about the report -/

theorem lookup_eq_none_of_not_mem_keys (k : String) (r : Record)
    (h : k ∉ r.map Prod.fst) : List.lookup k r = none := by
  induction r with
  | nil => rfl
  | cons p ps ih =>
    simp only [List.map_cons, List.mem_cons, not_or] at h
    have hb : (k == p.1) = false := by simp [beq_eq_false_iff_ne, h.1]
    simp only [List.lookup, hb]
    exact ih h.2

theorem describeError_isSome (r : Record) :
    (describeError r).isSome
      = (pySlice80 (pyGet r "error" (.str "Unknown error"))).isSome := by
  cases h : pySlice80 (pyGet r "error" (.str "Unknown error")) <;>
    simp [describeError, h]

/-- C8: the error listing appears only when `errored` is non-empty; it
then consists of the header followed by one line per errored record, in
`errored`'s order; a record whose `error` value is the string `s` gets
the line with its displayed `asin` value (the literal `"Unknown"` when
the key is absent), the first 80 characters of `s`, and the `"..."`
truncation marker. -/
theorem report_error_listing (errored : List Record) :
    (errored = [] → reportErrorSection errored = some []) ∧
    (errored ≠ [] →
      (∀ r ∈ errored, (pySlice80 (pyGet r "error" (.str "Unknown error"))).isSome) →
      ∃ ls, reportErrorSection errored = some ("\nASINs with errors:" :: ls) ∧
        List.Forall₂ (fun r l => describeError r = some l) errored ls) ∧
    (∀ r s, pyGet r "error" (.str "Unknown error") = .str s →
      describeError r = some (errBullet ++ pyStr (pyGet r "asin" (.str "Unknown"))
        ++ ": " ++ (⟨s.data.take 80⟩ : String) ++ "...")) ∧
    (∀ r, "asin" ∉ r.map Prod.fst → pyGet r "asin" (.str "Unknown") = .str "Unknown") := by
  refine ⟨fun h => by simp [h, reportErrorSection], fun hne hall => ?_, fun r s hs => ?_,
    fun r h => ?_⟩
  · obtain ⟨ls, hls, hf⟩ := mapOpt_forall2 describeError errored
      (fun r hr => by rw [describeError_isSome]; exact hall r hr)
    refine ⟨ls, ?_, hf⟩
    have hememp : errored.isEmpty = false := by
      cases errored with
      | nil => exact absurd rfl hne
      | cons a as => rfl
    simp [reportErrorSection, hememp, hls]
  · simp [describeError, hs, pySlice80, pyStr]
  · simp [pyGet, lookup_eq_none_of_not_mem_keys "asin" r h]

theorem report_error_listing_witness :
    ∃ ls, reportErrorSection [[("asin", Json.str "A2"), ("error", Json.str "boom")]]
        = some ("\nASINs with errors:" :: ls) ∧
      List.Forall₂ (fun r l => describeError r = some l)
        [[("asin", Json.str "A2"), ("error", Json.str "boom")]] ls :=
  (report_error_listing [[("asin", Json.str "A2"), ("error", Json.str "boom")]]).2.1
    (by simp)
    (by intro r hr; simp only [List.mem_singleton] at hr; subst hr; rfl)

/-- C9: the report completes exactly when every errored record's
`error` value supports slicing; string values suffice; `null` and
numbers do not support slicing, so a record mapping `error` to `null`
crashes the listing (`TypeError`), and a script run over such an input
file aborts without writing. -/
theorem report_is_partial_on_unsliceable_error (errored : List Record) :
    ((reportErrorSection errored).isSome ↔
      ∀ r ∈ errored, (pySlice80 (pyGet r "error" (.str "Unknown error"))).isSome) ∧
    ((∀ r ∈ errored, ∃ s, pyGet r "error" (.str "Unknown error") = .str s) →
      (reportErrorSection errored).isSome) ∧
    pySlice80 .null = none ∧ (∀ i, pySlice80 (.num i) = none) ∧
    reportErrorSection [[("error", Json.null)]] = none ∧
    runScript (fun q => if q = inputFile then some "[\x7b\"error\": null\x7d]" else none)
        = .error .typeError := by
  have hmain : (reportErrorSection errored).isSome ↔
      ∀ r ∈ errored, (pySlice80 (pyGet r "error" (.str "Unknown error"))).isSome := by
    unfold reportErrorSection
    cases herrored : errored.isEmpty with
    | true =>
      have : errored = [] := List.isEmpty_iff.mp herrored
      simp [this]
    | false =>
      have hsome : ∀ o : Option (List String),
          (o.map (fun ls => "\nASINs with errors:" :: ls)).isSome = o.isSome := by
        intro o; cases o <;> rfl
      rw [if_neg (by simp [herrored]), hsome, mapOpt_isSome]
      constructor
      · intro hall r hr; rw [← describeError_isSome]; exact hall r hr
      · intro hall r hr; rw [describeError_isSome]; exact hall r hr
  refine ⟨hmain, fun hall => ?_, rfl, fun i => rfl, rfl, rfl⟩
  rw [hmain]
  intro r hr
  obtain ⟨s, hs⟩ := hall r hr
  rw [hs]
  rfl

theorem report_is_partial_on_unsliceable_error_witness :
    (reportErrorSection [[("error", Json.str "x")]]).isSome :=
  (report_is_partial_on_unsliceable_error [[("error", Json.str "x")]]).2.1
    (by intro r hr; simp only [List.mem_singleton] at hr; subst hr; exact ⟨"x", rfl⟩)

/-! ## Round-trip: parsing the serializer's output (towards C5) -/

theorem skipWs_cons_ws (c : Char) (cs : List Char) (h : isWs c = true) :
    skipWs (c :: cs) = skipWs cs := by
  simp [skipWs, List.dropWhile_cons, h]

theorem skipWs_cons_not_ws (c : Char) (cs : List Char) (h : isWs c = false) :
    skipWs (c :: cs) = c :: cs := by
  simp [skipWs, List.dropWhile_cons, h]

theorem skipWs_ws_lead (pre cs : List Char) (h : ∀ c ∈ pre, isWs c = true) :
    skipWs (pre ++ cs) = skipWs cs := by
  induction pre with
  | nil => rfl
  | cons a as ih =>
    rw [List.cons_append, skipWs_cons_ws a _ (h a (by simp))]
    exact ih (fun c hc => h c (by simp [hc]))

theorem indentChars_ws (d : Nat) : ∀ c ∈ indentChars d, isWs c = true := by
  intro c hc
  have h : c = ' ' := List.eq_of_mem_replicate (by simpa [indentChars] using hc)
  subst h
  rfl

theorem hexVal_hexDigitCh : ∀ n, n < 16 → hexVal? (hexDigitCh n) = some n := by decide

theorem parseStrBody_escChar (c : Char) (rest : List Char) :
    parseStrBody (escChar c ++ rest) =
      (parseStrBody rest).map (fun p => (c :: p.1, p.2)) := by
  by_cases h1 : c = '"'
  · subst h1
    rw [show escChar '"' = ['\\', '"'] by decide]
    simp only [List.cons_append, List.nil_append]
    rw [parseStrBody.eq_def]
    simp [unescCh]
  by_cases h2 : c = '\\'
  · subst h2
    rw [show escChar '\\' = ['\\', '\\'] by decide]
    simp only [List.cons_append, List.nil_append]
    rw [parseStrBody.eq_def]
    simp [unescCh]
  by_cases h3 : c = '\n'
  · subst h3
    rw [show escChar '\n' = ['\\', 'n'] by decide]
    simp only [List.cons_append, List.nil_append]
    rw [parseStrBody.eq_def]
    simp [unescCh]
  by_cases h4 : c = '\r'
  · subst h4
    rw [show escChar '\r' = ['\\', 'r'] by decide]
    simp only [List.cons_append, List.nil_append]
    rw [parseStrBody.eq_def]
    simp [unescCh]
  by_cases h5 : c = '\t'
  · subst h5
    rw [show escChar '\t' = ['\\', 't'] by decide]
    simp only [List.cons_append, List.nil_append]
    rw [parseStrBody.eq_def]
    simp [unescCh]
  by_cases h6 : c.toNat = 8
  · have hc : c = Char.ofNat 8 := by
      have hx := Char.ofNat_toNat c
      rw [h6] at hx
      exact hx.symm
    subst hc
    rw [show escChar (Char.ofNat 8) = ['\\', 'b'] by decide]
    simp only [List.cons_append, List.nil_append]
    rw [parseStrBody.eq_def]
    simp [unescCh]
  by_cases h7 : c.toNat = 12
  · have hc : c = Char.ofNat 12 := by
      have hx := Char.ofNat_toNat c
      rw [h7] at hx
      exact hx.symm
    subst hc
    rw [show escChar (Char.ofNat 12) = ['\\', 'f'] by decide]
    simp only [List.cons_append, List.nil_append]
    rw [parseStrBody.eq_def]
    simp [unescCh]
  by_cases h8 : c.toNat < 32
  · rw [escChar, if_neg h1, if_neg h2, if_neg h3, if_neg h4, if_neg h5,
      if_neg h6, if_neg h7, if_pos h8, hex4]
    have e1 := hexVal_hexDigitCh (c.toNat / 4096 % 16) (Nat.mod_lt _ (by norm_num))
    have e2 := hexVal_hexDigitCh (c.toNat / 256 % 16) (Nat.mod_lt _ (by norm_num))
    have e3 := hexVal_hexDigitCh (c.toNat / 16 % 16) (Nat.mod_lt _ (by norm_num))
    have e4 := hexVal_hexDigitCh (c.toNat % 16) (Nat.mod_lt _ (by norm_num))
    have hval : ((c.toNat / 4096 % 16 * 16 + c.toNat / 256 % 16) * 16
        + c.toNat / 16 % 16) * 16 + c.toNat % 16 = c.toNat := by
      omega
    simp only [List.cons_append, List.nil_append]
    rw [parseStrBody.eq_def]
    simp [e1, e2, e3, e4, hval, Char.ofNat_toNat]
  · rw [escChar, if_neg h1, if_neg h2, if_neg h3, if_neg h4, if_neg h5,
      if_neg h6, if_neg h7, if_neg h8]
    simp only [List.cons_append, List.nil_append]
    rw [parseStrBody.eq_def]
    dsimp only
    rw [if_neg h1, if_neg h2]

theorem parseStrBody_encoded (cs rest : List Char) :
    parseStrBody ((cs.map escChar).flatten ++ '"' :: rest) = some (cs, rest) := by
  induction cs with
  | nil =>
    rw [List.map_nil, List.flatten_nil, List.nil_append, parseStrBody.eq_def]
    simp
  | cons a as ih =>
    rw [List.map_cons, List.flatten_cons, List.append_assoc, parseStrBody_escChar, ih]
    rfl

theorem digitCh_facts (n : Nat) :
    (digitCh n).isDigit = true ∧ digVal (digitCh n) = n % 10 := by
  have h : n % 10 < 10 := Nat.mod_lt _ (by norm_num)
  have hall : ∀ m, m < 10 → (Char.ofNat (48 + m)).isDigit = true ∧
      (Char.ofNat (48 + m)).toNat - 48 = m := by decide
  have hm := hall (n % 10) h
  rw [digitCh, digVal]
  exact hm

theorem natRevDigits_succ (n : Nat) :
    natRevDigits (n + 1) = digitCh ((n + 1) % 10) :: natRevDigits ((n + 1) / 10) := by
  rw [natRevDigits]

theorem natRevDigits_all_digits (n : Nat) :
    ∀ c ∈ natRevDigits n, c.isDigit = true := by
  induction n using Nat.strong_induction_on with
  | _ n ih =>
    cases n with
    | zero => intro c hc; simp [natRevDigits] at hc
    | succ m =>
      intro c hc
      rw [natRevDigits_succ] at hc
      rcases List.mem_cons.mp hc with h | h
      · rw [h]; exact (digitCh_facts _).1
      · exact ih ((m + 1) / 10) (Nat.div_lt_self (Nat.succ_pos m) (by norm_num)) c h

theorem natChars_all_digits (n : Nat) : ∀ c ∈ natChars n, c.isDigit = true := by
  intro c hc
  rw [natChars] at hc
  by_cases h : n = 0
  · simp [h] at hc; rw [hc]; decide
  · rw [if_neg h] at hc
    exact natRevDigits_all_digits n c (List.mem_reverse.mp hc)

theorem natChars_ne_nil (n : Nat) : natChars n ≠ [] := by
  rw [natChars]
  by_cases h : n = 0
  · simp [h]
  · rw [if_neg h]
    cases hn : n with
    | zero => exact absurd hn h
    | succ m => rw [natRevDigits_succ]; simp

theorem foldl_natRevDigits (n : Nat) (hn : n ≠ 0) : ∀ a : Nat,
    ((natRevDigits n).reverse).foldl (fun a c => a * 10 + digVal c) a
      = a * 10 ^ (natRevDigits n).length + n := by
  induction n using Nat.strong_induction_on with
  | _ n ih =>
    intro a
    cases n with
    | zero => exact absurd rfl hn
    | succ m =>
      rw [natRevDigits_succ, List.reverse_cons, List.foldl_append]
      simp only [List.foldl_cons, List.foldl_nil, List.length_cons]
      rw [(digitCh_facts ((m + 1) % 10)).2]
      have h99 : (m + 1) % 10 % 10 = (m + 1) % 10 := by omega
      rw [h99]
      by_cases hq : (m + 1) / 10 = 0
      · have hz : natRevDigits ((m + 1) / 10) = [] := by rw [hq, natRevDigits]
        rw [hz]
        simp only [List.reverse_nil, List.foldl_nil, List.length_nil, pow_succ,
          pow_zero, Nat.one_mul]
        omega
      · rw [ih ((m + 1) / 10) (Nat.div_lt_self (Nat.succ_pos m) (by norm_num)) hq a,
          pow_succ]
        have hdm : (m + 1) / 10 * 10 + (m + 1) % 10 = m + 1 := by omega
        have hr : (a * 10 ^ (natRevDigits ((m + 1) / 10)).length + (m + 1) / 10) * 10
            + (m + 1) % 10
            = a * (10 ^ (natRevDigits ((m + 1) / 10)).length * 10)
              + ((m + 1) / 10 * 10 + (m + 1) % 10) := by ring
        rw [hr, hdm]

theorem takeWhile_append_all (p : Char → Bool) (ds rest : List Char)
    (h : ∀ c ∈ ds, p c = true) :
    (ds ++ rest).takeWhile p = ds ++ rest.takeWhile p ∧
    (ds ++ rest).dropWhile p = rest.dropWhile p := by
  induction ds with
  | nil => simp
  | cons a as ih =>
    have ha : p a = true := h a (by simp)
    have hrec := ih (fun c hc => h c (by simp [hc]))
    simp [List.takeWhile_cons, List.dropWhile_cons, ha, hrec.1, hrec.2]

/-- The remaining input does not begin with a decimal digit (so a
numeral just before it ends where it should). -/
def noDigitHead : List Char → Prop
  | [] => True
  | c :: _ => c.isDigit = false

theorem takeWhile_eq_nil_of_noDigitHead (rest : List Char) (h : noDigitHead rest) :
    rest.takeWhile Char.isDigit = [] ∧ rest.dropWhile Char.isDigit = rest := by
  cases rest with
  | nil => exact ⟨rfl, rfl⟩
  | cons c cs =>
    rw [noDigitHead] at h
    simp [List.takeWhile_cons, List.dropWhile_cons, h]

theorem parseNat_natChars (n : Nat) (rest : List Char) (h : noDigitHead rest) :
    parseNat (natChars n ++ rest) = some (n, rest) := by
  have htw := takeWhile_append_all Char.isDigit (natChars n) rest (natChars_all_digits n)
  have hrest := takeWhile_eq_nil_of_noDigitHead rest h
  have htake : (natChars n ++ rest).takeWhile Char.isDigit = natChars n := by
    rw [htw.1, hrest.1, List.append_nil]
  have hdrop : (natChars n ++ rest).dropWhile Char.isDigit = rest := by
    rw [htw.2, hrest.2]
  obtain ⟨d, ds, hds⟩ := List.exists_cons_of_ne_nil (natChars_ne_nil n)
  rw [parseNat, htake, hds, ← hds, hdrop]
  by_cases hn : n = 0
  · subst hn
    rw [show natChars 0 = ['0'] from rfl]
    norm_num [digVal]
    decide
  · rw [natChars, if_neg hn, foldl_natRevDigits n hn 0]
    obtain ⟨d2, ds2, hds2⟩ : ∃ x y, (natRevDigits n).reverse = x :: y := by
      have hne := natChars_ne_nil n
      rw [natChars, if_neg hn] at hne
      exact List.exists_cons_of_ne_nil hne
    rw [hds2]
    simp

mutual

/-- Parser fuel sufficient for one JSON value. -/
def fuelOf : Json → Nat
  | .null => 1
  | .bool _ => 1
  | .num _ => 1
  | .str _ => 1
  | .arr l => 1 + fuelOfElems l
  | .obj l => 1 + fuelOfMems l
termination_by j => sizeOf j

/-- Parser fuel sufficient for an array tail. -/
def fuelOfElems : List Json → Nat
  | [] => 1
  | x :: xs => 1 + fuelOf x + fuelOfElems xs
termination_by l => sizeOf l

/-- Parser fuel sufficient for an object tail. -/
def fuelOfMems : List (String × Json) → Nat
  | [] => 1
  | (k, v) :: ms => 1 + fuelOf v + fuelOfMems ms
termination_by l => sizeOf l
decreasing_by
  all_goals simp
  all_goals omega

end

theorem fuelOf_pos (j : Json) : 1 ≤ fuelOf j := by
  cases j <;> rw [fuelOf] <;> omega

theorem isDigit_not_special (c : Char) (h : c.isDigit = true) :
    isWs c = false ∧ c ≠ ']' ∧ c ≠ '\x7d' ∧ c ≠ 'n' ∧ c ≠ 't' ∧ c ≠ 'f' ∧
      c ≠ '"' ∧ c ≠ '[' ∧ c ≠ '\x7b' ∧ c ≠ '-' ∧ c ≠ ',' := by
  have hsp : c ≠ ' ' := fun e => by rw [e] at h; exact absurd h (by decide)
  have hnl : c ≠ '\n' := fun e => by rw [e] at h; exact absurd h (by decide)
  have hcr : c ≠ '\r' := fun e => by rw [e] at h; exact absurd h (by decide)
  have htb : c ≠ '\t' := fun e => by rw [e] at h; exact absurd h (by decide)
  refine ⟨by simp [isWs, hsp, hnl, hcr, htb], ?_, ?_, ?_, ?_, ?_, ?_, ?_, ?_, ?_, ?_⟩ <;>
    exact fun e => by rw [e] at h; exact absurd h (by decide)

theorem intChars_head (i : Int) :
    ∃ c t, intChars i = c :: t ∧ (c.isDigit = true ∨ c = '-') := by
  cases i with
  | ofNat n =>
    obtain ⟨c, t, hct⟩ := List.exists_cons_of_ne_nil (natChars_ne_nil n)
    refine ⟨c, t, by rw [intChars, hct], Or.inl ?_⟩
    exact natChars_all_digits n c (by rw [hct]; simp)
  | negSucc n => exact ⟨'-', natChars (n + 1), by rw [intChars], Or.inr rfl⟩

theorem dumpsVal_head (d : Nat) (j : Json) :
    ∃ c t, dumpsVal d j = c :: t ∧ isWs c = false ∧ c ≠ ']' ∧ c ≠ '\x7d' := by
  cases j with
  | null => exact ⟨'n', _, by rw [dumpsVal], by decide, by decide, by decide⟩
  | bool b =>
    cases b with
    | true => exact ⟨'t', _, by rw [dumpsVal], by decide, by decide, by decide⟩
    | false => exact ⟨'f', _, by rw [dumpsVal], by decide, by decide, by decide⟩
  | num i =>
    obtain ⟨c, t, hct, hd⟩ := intChars_head i
    refine ⟨c, t, by rw [dumpsVal, hct], ?_, ?_, ?_⟩ <;>
      rcases hd with hd | hd
    · exact (isDigit_not_special c hd).1
    · rw [hd]; decide
    · exact (isDigit_not_special c hd).2.1
    · rw [hd]; decide
    · exact (isDigit_not_special c hd).2.2.1
    · rw [hd]; decide
  | str s => exact ⟨'"', _, by rw [dumpsVal, encStr]; rfl, by decide, by decide, by decide⟩
  | arr l =>
    cases l with
    | nil => exact ⟨'[', _, by rw [dumpsVal], by decide, by decide, by decide⟩
    | cons x xs => exact ⟨'[', _, by rw [dumpsVal]; rfl, by decide, by decide, by decide⟩
  | obj l =>
    cases l with
    | nil => exact ⟨'\x7b', _, by rw [dumpsVal], by decide, by decide, by decide⟩
    | cons m ms => exact ⟨'\x7b', _, by rw [dumpsVal]; rfl, by decide, by decide, by decide⟩

theorem fuel_le_dumps : ∀ N : Nat,
    (∀ j : Json, sizeOf j ≤ N → ∀ d, fuelOf j ≤ (dumpsVal d j).length) ∧
    (∀ (x : Json) (xs : List Json), sizeOf x + sizeOf xs ≤ N → ∀ d,
      fuelOfElems (x :: xs) ≤ (dumpsElems d x xs).length + 2) ∧
    (∀ (m : String × Json) (ms : List (String × Json)), sizeOf m + sizeOf ms ≤ N →
      ∀ d, fuelOfMems (m :: ms) ≤ (dumpsMems d m ms).length + 2) := by
  intro N
  induction N using Nat.strong_induction_on with
  | _ N ih =>
    refine ⟨?_, ?_, ?_⟩
    · intro j hsz d
      cases j with
      | null => rw [fuelOf, dumpsVal]; simp
      | bool b => cases b <;> rw [fuelOf, dumpsVal] <;> simp
      | num i =>
        obtain ⟨c, t, hct, -⟩ := intChars_head i
        rw [fuelOf, dumpsVal, hct]
        simp
      | str s => rw [fuelOf, dumpsVal, encStr]; simp
      | arr l =>
        cases l with
        | nil => rw [fuelOf, fuelOfElems, dumpsVal]; simp
        | cons x xs =>
          have hm : sizeOf x + sizeOf xs < N := by simp at hsz; omega
          have hB := (ih _ hm).2.1 x xs (Nat.le_refl _) (d + 1)
          rw [fuelOf, dumpsVal]
          simp only [List.length_append, List.length_cons, indentChars,
            List.length_replicate]
          omega
      | obj l =>
        cases l with
        | nil => rw [fuelOf, fuelOfMems, dumpsVal]; simp
        | cons m ms =>
          have hm : sizeOf m + sizeOf ms < N := by simp at hsz; omega
          have hC := (ih _ hm).2.2 m ms (Nat.le_refl _) (d + 1)
          rw [fuelOf, dumpsVal]
          simp only [List.length_append, List.length_cons, indentChars,
            List.length_replicate]
          omega
    · intro x xs hsz d
      cases xs with
      | nil =>
        have hm : sizeOf x < N := by simp at hsz; omega
        have hA := (ih _ hm).1 x (Nat.le_refl _) d
        rw [show fuelOfElems [x] = 2 + fuelOf x by rw [fuelOfElems, fuelOfElems]; omega,
          dumpsElems]
        simp only [List.length_append, indentChars, List.length_replicate]
        omega
      | cons y ys =>
        have hmx : sizeOf x < N := by simp at hsz; omega
        have hmy : sizeOf y + sizeOf ys < N := by simp at hsz; omega
        have hA := (ih _ hmx).1 x (Nat.le_refl _) d
        have hB := (ih _ hmy).2.1 y ys (Nat.le_refl _) d
        rw [fuelOfElems, dumpsElems]
        simp only [List.length_append, List.length_cons, indentChars,
          List.length_replicate]
        omega
    · intro m ms hsz d
      obtain ⟨k, v⟩ := m
      cases ms with
      | nil =>
        have hm : sizeOf v < N := by simp at hsz; omega
        have hA := (ih _ hm).1 v (Nat.le_refl _) d
        rw [show fuelOfMems [(k, v)] = 2 + fuelOf v by
            rw [fuelOfMems, fuelOfMems]; omega,
          dumpsMems]
        simp only [List.length_append, List.length_cons, indentChars,
          List.length_replicate, encStr]
        omega
      | cons y ys =>
        have hmv : sizeOf v < N := by simp at hsz; omega
        have hmy : sizeOf y + sizeOf ys < N := by simp at hsz; omega
        have hA := (ih _ hmv).1 v (Nat.le_refl _) d
        have hC := (ih _ hmy).2.2 y ys (Nat.le_refl _) d
        rw [fuelOfMems, dumpsMems]
        simp only [List.length_append, List.length_cons, indentChars,
          List.length_replicate, encStr]
        omega

theorem noDigitHead_cons (c : Char) (cs : List Char) (h : c.isDigit = false) :
    noDigitHead (c :: cs) := h

theorem ws_newline_indent (d : Nat) : ∀ a ∈ '\n' :: indentChars d, isWs a = true := by
  intro a ha
  rcases List.mem_cons.mp ha with h | h
  · rw [h]; rfl
  · exact indentChars_ws d a h

theorem ws_single_space : ∀ a ∈ [' '], isWs a = true := by decide

theorem skipWs_dumpsElems_head (e : Nat) (x : Json) (xs : List Json)
    (tail : List Char) :
    ∃ c0 t0, skipWs (dumpsElems e x xs ++ tail) = c0 :: t0 ∧ isWs c0 = false ∧
      c0 ≠ ']' ∧ c0 ≠ '\x7d' := by
  obtain ⟨c0, t0, hx, hws, hne1, hne2⟩ := dumpsVal_head e x
  cases xs with
  | nil =>
    refine ⟨c0, t0 ++ tail, ?_, hws, hne1, hne2⟩
    rw [dumpsElems, List.append_assoc, skipWs_ws_lead _ _ (indentChars_ws e), hx,
      List.cons_append]
    exact skipWs_cons_not_ws _ _ hws
  | cons y ys =>
    refine ⟨c0, t0 ++ (',' :: '\n' :: dumpsElems e y ys ++ tail), ?_, hws, hne1, hne2⟩
    rw [dumpsElems]
    simp only [List.append_assoc, List.cons_append]
    rw [skipWs_ws_lead _ _ (indentChars_ws e), hx, List.cons_append]
    rw [skipWs_cons_not_ws _ _ hws]

theorem skipWs_dumpsMems_head (e : Nat) (m : String × Json)
    (ms : List (String × Json)) (tail : List Char) :
    ∃ t0, skipWs (dumpsMems e m ms ++ tail) = '"' :: t0 := by
  obtain ⟨k, v⟩ := m
  cases ms with
  | nil =>
    refine ⟨(k.data.map escChar).flatten ++ ['"'] ++ (':' :: ' ' :: dumpsVal e v)
      ++ tail, ?_⟩
    rw [dumpsMems]
    simp only [encStr, List.append_assoc, List.cons_append]
    rw [skipWs_ws_lead _ _ (indentChars_ws e), skipWs_cons_not_ws _ _ (by decide)]
  | cons y ys =>
    refine ⟨(k.data.map escChar).flatten ++ ['"'] ++ (':' :: ' ' :: dumpsVal e v)
      ++ (',' :: '\n' :: dumpsMems e y ys) ++ tail, ?_⟩
    rw [dumpsMems]
    simp only [encStr, List.append_assoc, List.cons_append]
    rw [skipWs_ws_lead _ _ (indentChars_ws e), skipWs_cons_not_ws _ _ (by decide)]

theorem parse_dumps : ∀ N : Nat,
    (∀ j : Json, sizeOf j ≤ N → ∀ d fuel pre rest, fuelOf j ≤ fuel →
      (∀ c ∈ pre, isWs c = true) → noDigitHead rest →
      parseValue fuel (pre ++ dumpsVal d j ++ rest) = some (j, rest)) ∧
    (∀ (x : Json) (xs : List Json), sizeOf x + sizeOf xs ≤ N →
      ∀ e d fuel rest, fuelOfElems (x :: xs) ≤ fuel →
      parseElems fuel
          (('\n' :: dumpsElems e x xs) ++ (('\n' :: indentChars d) ++ (']' :: rest)))
        = some (x :: xs, rest)) ∧
    (∀ (m : String × Json) (ms : List (String × Json)), sizeOf m + sizeOf ms ≤ N →
      ∀ e d fuel rest, fuelOfMems (m :: ms) ≤ fuel →
      parseMems fuel
          (('\n' :: dumpsMems e m ms) ++ (('\n' :: indentChars d) ++ ('\x7d' :: rest)))
        = some (m :: ms, rest)) := by
  intro N
  induction N using Nat.strong_induction_on with
  | _ N ih =>
    refine ⟨?_, ?_, ?_⟩
    · intro j hsz d fuel pre rest hfuel hpre hrest
      obtain ⟨f, rfl⟩ : ∃ f, fuel = f + 1 := by
        have := fuelOf_pos j
        cases fuel with
        | zero => omega
        | succ f => exact ⟨f, rfl⟩
      rw [parseValue]
      cases j with
      | null =>
        have hskip : skipWs (pre ++ dumpsVal d .null ++ rest)
            = 'n' :: 'u' :: 'l' :: 'l' :: rest := by
          rw [dumpsVal]
          simp only [List.append_assoc, List.cons_append, List.nil_append]
          rw [skipWs_ws_lead _ _ hpre]
          exact skipWs_cons_not_ws _ _ (by decide)
        rw [hskip]
        simp
      | bool b =>
        cases b with
        | true =>
          have hskip : skipWs (pre ++ dumpsVal d (.bool true) ++ rest)
              = 't' :: 'r' :: 'u' :: 'e' :: rest := by
            rw [dumpsVal]
            simp only [List.append_assoc, List.cons_append, List.nil_append]
            rw [skipWs_ws_lead _ _ hpre]
            exact skipWs_cons_not_ws _ _ (by decide)
          rw [hskip]
          simp
        | false =>
          have hskip : skipWs (pre ++ dumpsVal d (.bool false) ++ rest)
              = 'f' :: 'a' :: 'l' :: 's' :: 'e' :: rest := by
            rw [dumpsVal]
            simp only [List.append_assoc, List.cons_append, List.nil_append]
            rw [skipWs_ws_lead _ _ hpre]
            exact skipWs_cons_not_ws _ _ (by decide)
          rw [hskip]
          simp
      | num i =>
        cases i with
        | ofNat n =>
          obtain ⟨c0, t0, hct⟩ := List.exists_cons_of_ne_nil (natChars_ne_nil n)
          have hdig : c0.isDigit = true := natChars_all_digits n c0 (by rw [hct]; simp)
          obtain ⟨hws0, hrb, hcb, hn, ht, hf, hq, hlb, hob, hmi, hcm⟩ :=
            isDigit_not_special c0 hdig
          have hskip : skipWs (pre ++ dumpsVal d (.num (.ofNat n)) ++ rest)
              = c0 :: (t0 ++ rest) := by
            rw [dumpsVal, intChars, hct]
            simp only [List.append_assoc, List.cons_append, List.nil_append]
            rw [skipWs_ws_lead _ _ hpre]
            exact skipWs_cons_not_ws _ _ hws0
          rw [hskip]
          dsimp only
          rw [if_neg hn, if_neg ht, if_neg hf, if_neg hq, if_neg hlb, if_neg hob,
            if_neg hmi, if_pos hdig]
          have hcat : c0 :: (t0 ++ rest) = natChars n ++ rest := by
            rw [hct, List.cons_append]
          rw [hcat, parseNat_natChars n rest hrest]
          rfl
        | negSucc n =>
          have hskip : skipWs (pre ++ dumpsVal d (.num (.negSucc n)) ++ rest)
              = '-' :: (natChars (n + 1) ++ rest) := by
            rw [dumpsVal, intChars]
            simp only [List.append_assoc, List.cons_append, List.nil_append]
            rw [skipWs_ws_lead _ _ hpre]
            exact skipWs_cons_not_ws _ _ (by decide)
          rw [hskip]
          dsimp only
          rw [if_neg (by decide), if_neg (by decide), if_neg (by decide),
            if_neg (by decide), if_neg (by decide), if_neg (by decide), if_pos rfl,
            parseNat_natChars (n + 1) rest hrest]
          rfl
      | str s =>
        have hskip : skipWs (pre ++ dumpsVal d (.str s) ++ rest)
            = '"' :: ((s.data.map escChar).flatten ++ '"' :: rest) := by
          rw [dumpsVal, encStr]
          simp only [List.append_assoc, List.cons_append, List.nil_append]
          rw [skipWs_ws_lead _ _ hpre]
          exact skipWs_cons_not_ws _ _ (by decide)
        rw [hskip]
        dsimp only
        rw [if_neg (by decide), if_neg (by decide), if_neg (by decide), if_pos rfl,
          parseStrBody_encoded s.data rest]
        rfl
      | arr l =>
        cases l with
        | nil =>
          have hskip : skipWs (pre ++ dumpsVal d (.arr []) ++ rest)
              = '[' :: (']' :: rest) := by
            rw [dumpsVal]
            simp only [List.append_assoc, List.cons_append, List.nil_append]
            rw [skipWs_ws_lead _ _ hpre]
            exact skipWs_cons_not_ws _ _ (by decide)
          rw [hskip]
          dsimp only
          rw [if_neg (by decide), if_neg (by decide), if_neg (by decide),
            if_neg (by decide), if_pos rfl, skipWs_cons_not_ws _ _ (by decide)]
          rfl
        | cons x xs =>
          have hm : sizeOf x + sizeOf xs < N := by simp at hsz; omega
          have hfe : fuelOfElems (x :: xs) ≤ f := by rw [fuelOf] at hfuel; omega
          have hE := (ih _ hm).2.1 x xs (Nat.le_refl _) (d + 1) d f rest hfe
          have hskip : skipWs (pre ++ dumpsVal d (.arr (x :: xs)) ++ rest)
              = '[' :: ('\n' :: (dumpsElems (d + 1) x xs
                  ++ ('\n' :: (indentChars d ++ (']' :: rest))))) := by
            rw [dumpsVal]
            simp only [List.append_assoc, List.cons_append, List.nil_append]
            rw [skipWs_ws_lead _ _ hpre]
            exact skipWs_cons_not_ws _ _ (by decide)
          rw [hskip]
          dsimp only
          rw [if_neg (by decide), if_neg (by decide), if_neg (by decide),
            if_neg (by decide), if_pos rfl]
          obtain ⟨c0, t0, hsk2, hws0, hne1, hne2⟩ :=
            skipWs_dumpsElems_head (d + 1) x xs
              ('\n' :: (indentChars d ++ (']' :: rest)))
          have hsk3 : skipWs ('\n' :: (dumpsElems (d + 1) x xs
              ++ ('\n' :: (indentChars d ++ (']' :: rest))))) = c0 :: t0 := by
            rw [skipWs_cons_ws _ _ (by decide)]
            exact hsk2
          rw [hsk3]
          split
          · next r heq =>
            injection heq with h1 h2
            exact absurd h1 hne1
          · have hE' := hE
            simp only [List.cons_append, List.append_assoc] at hE'
            rw [hE']
            rfl
      | obj l =>
        cases l with
        | nil =>
          have hskip : skipWs (pre ++ dumpsVal d (.obj []) ++ rest)
              = '\x7b' :: ('\x7d' :: rest) := by
            rw [dumpsVal]
            simp only [List.append_assoc, List.cons_append, List.nil_append]
            rw [skipWs_ws_lead _ _ hpre]
            exact skipWs_cons_not_ws _ _ (by decide)
          rw [hskip]
          dsimp only
          rw [if_neg (by decide), if_neg (by decide), if_neg (by decide),
            if_neg (by decide), if_neg (by decide), if_pos rfl,
            skipWs_cons_not_ws _ _ (by decide)]
          rfl
        | cons m ms =>
          have hm : sizeOf m + sizeOf ms < N := by simp at hsz; omega
          have hfm : fuelOfMems (m :: ms) ≤ f := by rw [fuelOf] at hfuel; omega
          have hM := (ih _ hm).2.2 m ms (Nat.le_refl _) (d + 1) d f rest hfm
          have hskip : skipWs (pre ++ dumpsVal d (.obj (m :: ms)) ++ rest)
              = '\x7b' :: ('\n' :: (dumpsMems (d + 1) m ms
                  ++ ('\n' :: (indentChars d ++ ('\x7d' :: rest))))) := by
            rw [dumpsVal]
            simp only [List.append_assoc, List.cons_append, List.nil_append]
            rw [skipWs_ws_lead _ _ hpre]
            exact skipWs_cons_not_ws _ _ (by decide)
          rw [hskip]
          dsimp only
          rw [if_neg (by decide), if_neg (by decide), if_neg (by decide),
            if_neg (by decide), if_neg (by decide), if_pos rfl]
          obtain ⟨t0, hsk2⟩ :=
            skipWs_dumpsMems_head (d + 1) m ms
              ('\n' :: (indentChars d ++ ('\x7d' :: rest)))
          have hsk3 : skipWs ('\n' :: (dumpsMems (d + 1) m ms
              ++ ('\n' :: (indentChars d ++ ('\x7d' :: rest))))) = '"' :: t0 := by
            rw [skipWs_cons_ws _ _ (by decide)]
            exact hsk2
          rw [hsk3]
          split
          · next r heq =>
            injection heq with h1 h2
            exact absurd h1 (by decide)
          · have hM' := hM
            simp only [List.cons_append, List.append_assoc] at hM'
            rw [hM']
            rfl
    · intro x xs hsz e d fuel rest hfuel
      obtain ⟨f, rfl⟩ : ∃ f, fuel = f + 1 := by
        rw [fuelOfElems] at hfuel
        cases fuel with
        | zero => omega
        | succ f => exact ⟨f, rfl⟩
      rw [parseElems]
      cases xs with
      | nil =>
        have hm : sizeOf x < N := by simp at hsz; omega
        have hfx : fuelOf x ≤ f := by
          rw [fuelOfElems, fuelOfElems] at hfuel; omega
        have hval := (ih _ hm).1 x (Nat.le_refl _) e f ('\n' :: indentChars e)
          ('\n' :: (indentChars d ++ (']' :: rest))) hfx (ws_newline_indent e)
          (noDigitHead_cons '\n' _ (by decide))
        have hin : ('\n' :: dumpsElems e x []) ++ (('\n' :: indentChars d)
              ++ (']' :: rest))
            = ('\n' :: indentChars e) ++ (dumpsVal e x
              ++ ('\n' :: (indentChars d ++ (']' :: rest)))) := by
          rw [dumpsElems]
          simp only [List.cons_append, List.append_assoc]
        simp only [List.append_assoc] at hval
        rw [hin, hval]
        dsimp only
        have hsk : skipWs ('\n' :: (indentChars d ++ (']' :: rest))) = ']' :: rest := by
          rw [skipWs_cons_ws _ _ (by decide), skipWs_ws_lead _ _ (indentChars_ws d)]
          exact skipWs_cons_not_ws _ _ (by decide)
        rw [hsk]
        rfl
      | cons y ys =>
        have hmx : sizeOf x < N := by simp at hsz; omega
        have hmy : sizeOf y + sizeOf ys < N := by simp at hsz; omega
        have hfx : fuelOf x ≤ f := by rw [fuelOfElems] at hfuel; omega
        have hfy : fuelOfElems (y :: ys) ≤ f := by
          have := fuelOf_pos x
          rw [fuelOfElems] at hfuel; omega
        have hval := (ih _ hmx).1 x (Nat.le_refl _) e f ('\n' :: indentChars e)
          (',' :: ('\n' :: (dumpsElems e y ys ++ ('\n' :: (indentChars d
            ++ (']' :: rest)))))) hfx (ws_newline_indent e)
          (noDigitHead_cons ',' _ (by decide))
        have hin : ('\n' :: dumpsElems e x (y :: ys)) ++ (('\n' :: indentChars d)
              ++ (']' :: rest))
            = ('\n' :: indentChars e) ++ (dumpsVal e x
              ++ (',' :: ('\n' :: (dumpsElems e y ys ++ ('\n' :: (indentChars d
                ++ (']' :: rest))))))) := by
          rw [dumpsElems]
          simp only [List.cons_append, List.append_assoc]
        simp only [List.append_assoc] at hval
        rw [hin, hval]
        dsimp only
        rw [skipWs_cons_not_ws _ _ (by decide)]
        have hrec := (ih _ hmy).2.1 y ys (Nat.le_refl _) e d f rest hfy
        simp only [List.cons_append, List.append_assoc] at hrec
        simp only []
        rw [hrec]
        rfl
    · intro m ms hsz e d fuel rest hfuel
      obtain ⟨k, v⟩ := m
      obtain ⟨f, rfl⟩ : ∃ f, fuel = f + 1 := by
        rw [fuelOfMems] at hfuel
        cases fuel with
        | zero => omega
        | succ f => exact ⟨f, rfl⟩
      rw [parseMems]
      cases ms with
      | nil =>
        have hm : sizeOf v < N := by simp at hsz; omega
        have hfv : fuelOf v ≤ f := by
          rw [fuelOfMems, fuelOfMems] at hfuel; omega
        have hval := (ih _ hm).1 v (Nat.le_refl _) e f [' ']
          ('\n' :: (indentChars d ++ ('\x7d' :: rest))) hfv ws_single_space
          (noDigitHead_cons '\n' _ (by decide))
        simp only [List.append_assoc, List.cons_append, List.nil_append] at hval
        have hskip : skipWs (('\n' :: dumpsMems e (k, v) []) ++ (('\n' :: indentChars d)
              ++ ('\x7d' :: rest)))
            = '"' :: ((k.data.map escChar).flatten
              ++ '"' :: (':' :: (' ' :: (dumpsVal e v
                ++ ('\n' :: (indentChars d ++ ('\x7d' :: rest))))))) := by
          simp only [List.cons_append, List.append_assoc]
          rw [skipWs_cons_ws _ _ (by decide), dumpsMems]
          dsimp only
          rw [encStr]
          simp only [List.cons_append, List.append_assoc, List.nil_append]
          rw [skipWs_ws_lead _ _ (indentChars_ws e)]
          exact skipWs_cons_not_ws _ _ (by decide)
        rw [hskip]
        simp only []
        rw [parseStrBody_encoded k.data _]
        simp only []
        rw [skipWs_cons_not_ws _ _ (by decide)]
        simp only []
        rw [hval]
        simp only []
        have hsk : skipWs ('\n' :: (indentChars d ++ ('\x7d' :: rest)))
            = '\x7d' :: rest := by
          rw [skipWs_cons_ws _ _ (by decide), skipWs_ws_lead _ _ (indentChars_ws d)]
          exact skipWs_cons_not_ws _ _ (by decide)
        rw [hsk]
        rfl
      | cons y ys =>
        have hmv : sizeOf v < N := by simp at hsz; omega
        have hmy : sizeOf y + sizeOf ys < N := by simp at hsz; omega
        have hfv : fuelOf v ≤ f := by rw [fuelOfMems] at hfuel; omega
        have hfy : fuelOfMems (y :: ys) ≤ f := by
          have := fuelOf_pos v
          rw [fuelOfMems] at hfuel; omega
        have hval := (ih _ hmv).1 v (Nat.le_refl _) e f [' ']
          (',' :: ('\n' :: (dumpsMems e y ys ++ ('\n' :: (indentChars d
            ++ ('\x7d' :: rest)))))) hfv ws_single_space
          (noDigitHead_cons ',' _ (by decide))
        simp only [List.append_assoc, List.cons_append, List.nil_append] at hval
        have hskip : skipWs (('\n' :: dumpsMems e (k, v) (y :: ys))
              ++ (('\n' :: indentChars d) ++ ('\x7d' :: rest)))
            = '"' :: ((k.data.map escChar).flatten
              ++ '"' :: (':' :: (' ' :: (dumpsVal e v
                ++ (',' :: ('\n' :: (dumpsMems e y ys ++ ('\n' :: (indentChars d
                  ++ ('\x7d' :: rest)))))))))) := by
          simp only [List.cons_append, List.append_assoc]
          rw [skipWs_cons_ws _ _ (by decide), dumpsMems]
          dsimp only
          rw [encStr]
          simp only [List.cons_append, List.append_assoc, List.nil_append]
          rw [skipWs_ws_lead _ _ (indentChars_ws e)]
          exact skipWs_cons_not_ws _ _ (by decide)
        rw [hskip]
        simp only []
        rw [parseStrBody_encoded k.data _]
        simp only []
        rw [skipWs_cons_not_ws _ _ (by decide)]
        simp only []
        rw [hval]
        simp only []
        rw [skipWs_cons_not_ws _ _ (by decide)]
        simp only []
        have hrec := (ih _ hmy).2.2 y ys (Nat.le_refl _) e d f rest hfy
        simp only [List.cons_append, List.append_assoc] at hrec
        rw [hrec]
        rfl

theorem parseJson_dumps (j : Json) : parseJson (dumps j) = some j := by
  rw [parseJson]
  have hdata : (dumps j).data = dumpsVal 0 j := rfl
  rw [hdata]
  have hfuel : fuelOf j ≤ (dumpsVal 0 j).length + 1 :=
    le_trans ((fuel_le_dumps (sizeOf j)).1 j (Nat.le_refl _) 0) (Nat.le_succ _)
  have hmain := (parse_dumps (sizeOf j)).1 j (Nat.le_refl _) 0
    ((dumpsVal 0 j).length + 1) [] [] hfuel (by simp) trivial
  simp only [List.nil_append, List.append_nil] at hmain
  rw [hmain]
  rfl

theorem mapOpt_obj (l : List Record) :
    mapOpt (fun j : Json => match j with | Json.obj r => some r | _ => none)
      (l.map Json.obj) = some l := by
  induction l with
  | nil => rfl
  | cons r rs ih => simp [mapOpt, ih]

/-- C5: parsing the text `writeCleaned` stores at the output path yields
exactly the JSON array of the `valid` records - the same sequence, in
the same order. -/
theorem writeCleaned_parse_roundtrip (fs : FS) (valid : List Record) :
    ∃ c, (writeCleaned fs valid) outputFile = some c ∧
      parseJson c = some (.arr (valid.map .obj)) ∧
      toRecords (.arr (valid.map .obj)) = some valid := by
  refine ⟨dumps (.arr (valid.map .obj)), by simp [writeCleaned, fsWrite],
    parseJson_dumps _, ?_⟩
  rw [toRecords, mapOpt_obj]
